import Mathlib

/-!
Verification development for the SIDE editor core (src/ide/src/main.rs and
src/ide/src/syntax.rs), a shallow embedding of its text buffer / cursor
engine, viewport virtualizer, line splitting, and rule-based highlighter.

Modelling conventions, fixed once for the whole file:
* Rust `String` values are modelled as lists of UTF-8 code units
  (`Str := List Nat`), because the program indexes cursor columns by raw
  bytes (`ch.len_utf8()`, `String::insert/remove` at byte offsets).
* A Rust panic (out-of-bounds `Vec`/`String` indexing, or a `String`
  operation at a non-char-boundary offset) has no resulting program state,
  so every mutating operation is embedded as `EditorState → Option EditorState`,
  with `none` exactly on the inputs where the Rust code panics.
* `f64` viewport arithmetic is modelled over `ℚ`; on every value the claims
  touch (small integers, exact divisions) the IEEE double computation is
  exact, and `(14.0 * 1.4).round()` is `20` for both `f64` and `ℚ`.
-/

namespace SIDE

/-- UTF-8 code-unit strings: the byte list underlying a Rust `String`. -/
abbrev Str := List Nat

/-- Number of UTF-8 bytes of a scalar value, as computed by Rust's
`char::len_utf8`. -/
def utf8Len (c : Nat) : Nat :=
  if c < 0x80 then 1 else if c < 0x800 then 2 else if c < 0x10000 then 3 else 4

/-- UTF-8 encoding of a scalar value, the bytes Rust splices into a `String`
when inserting a `char`. -/
def utf8Encode (c : Nat) : Str :=
  if c < 0x80 then [c]
  else if c < 0x800 then [0xC0 + c / 64, 0x80 + c % 64]
  else if c < 0x10000 then [0xE0 + c / 4096, 0x80 + c / 64 % 64, 0x80 + c % 64]
  else [0xF0 + c / 262144, 0x80 + c / 4096 % 64, 0x80 + c / 64 % 64, 0x80 + c % 64]

/-- Rust's `str::is_char_boundary`: true at the end of the string, and at any
index whose byte is not a UTF-8 continuation byte. -/
def is_char_boundary (s : Str) (i : Nat) : Bool :=
  match s[i]? with
  | some b => decide (b < 0x80) || decide (0xC0 ≤ b)
  | none => i == s.length

/-- Width of the UTF-8 sequence introduced by a leading byte (Rust's
`utf8_char_width` table); `0` on bytes that cannot lead a character. -/
def utf8CharWidth (b : Nat) : Nat :=
  if b < 0x80 then 1
  else if b < 0xC2 then 0
  else if b < 0xE0 then 2
  else if b < 0xF0 then 3
  else if b < 0xF5 then 4
  else 0

/-- Rust `String::insert self col ch`: panics (`none`) unless `col` lies on a
char boundary (which implies `col ≤ len`); otherwise splices the character's
UTF-8 bytes at `col`. -/
def string_insert (s : Str) (i : Nat) (ch : Nat) : Option Str :=
  if is_char_boundary s i then some (s.take i ++ utf8Encode ch ++ s.drop i) else none

/-- Rust `String::remove self i`: panics (`none`) if `i` is out of range or not
on a char boundary; otherwise drains the character starting at `i`, whose byte
width is read off its leading byte. The two extra guards (width at least 1 and
the character fitting inside the string) always hold on the valid UTF-8
contents Rust's `String` type guarantees; byte lists violating them do not
correspond to any Rust `String`, and are mapped to `none`. -/
def string_remove (s : Str) (i : Nat) : Option Str :=
  match s[i]? with
  | none => none
  | some b =>
    if is_char_boundary s i ∧ 1 ≤ utf8CharWidth b ∧ i + utf8CharWidth b ≤ s.length
    then some (s.take i ++ s.drop (i + utf8CharWidth b))
    else none

/-- Cursor from main.rs: a line index and a byte column. -/
structure Cursor where
  line : Nat
  col : Nat
deriving DecidableEq

/-- EditorState from main.rs, restricted to the fields the editing operations
read or write. The `scroll_x`/`scroll_y` fields are `f64` render state that no
editing operation touches, so they are omitted from the embedding. -/
structure EditorState where
  lines : List Str
  cursor : Cursor
deriving DecidableEq

/-- Line addressed by an index, empty when out of range (used only in
statements, never to hide a panic of the code). -/
def lineAt (lines : List Str) (i : Nat) : Str :=
  (lines[i]?).getD []

/-- Rust `Vec::remove` at an index known to be in bounds at every call site. -/
def removeAt (n : Nat) (l : List α) : List α :=
  l.take n ++ l.drop (n + 1)

/-- Rust `Vec::insert` at an index known to be at most the length at every
call site. -/
def insertAt (n : Nat) (a : α) (l : List α) : List α :=
  l.take n ++ a :: l.drop n

/-- Line vector seen by `insert_char` after its out-of-range guard: one empty
line is pushed when `cursor.line` is out of range. -/
def insertTarget (s : EditorState) : List Str :=
  if s.lines.length ≤ s.cursor.line then s.lines ++ [[]] else s.lines

/-- insert_char from main.rs: if `cursor.line` is out of range one empty line
is pushed, then `lines[line].insert(col, ch)` runs (indexing and the insert
both panic → `none` when out of bounds), and the column advances by the
character's UTF-8 length. -/
def insert_char (ch : Nat) (s : EditorState) : Option EditorState :=
  match (insertTarget s)[s.cursor.line]? with
  | none => none
  | some cur =>
    match string_insert cur s.cursor.col ch with
    | none => none
    | some newLine =>
      some ⟨(insertTarget s).set s.cursor.line newLine,
            ⟨s.cursor.line, s.cursor.col + utf8Len ch⟩⟩

/-- insert_str from main.rs: `insert_char` for each character in order; a
panic anywhere aborts the whole run. -/
def insert_str (t : List Nat) (s : EditorState) : Option EditorState :=
  match t with
  | [] => some s
  | c :: rest =>
    match insert_char c s with
    | none => none
    | some s1 => insert_str rest s1

/-- Clamped line index of `backspace`
(`line.min(lines.len().saturating_sub(1))`). -/
def clampLine (s : EditorState) : Nat := min s.cursor.line (s.lines.length - 1)

/-- backspace from main.rs. Note two fidelity points taken from the source:
the line index is clamped for the edit but `cursor.line` itself is not
rewritten in the in-line branch, and the merge branch captures the previous
line's length before appending. -/
def backspace (s : EditorState) : Option EditorState :=
  if s.lines.isEmpty then some ⟨[[]], ⟨0, 0⟩⟩
  else if 0 < s.cursor.col then
    match s.lines[clampLine s]? with
    | none => none
    | some cur =>
      if s.cursor.col ≤ cur.length then
        match string_remove cur (s.cursor.col - 1) with
        | none => none
        | some newLine =>
          some ⟨s.lines.set (clampLine s) newLine, ⟨s.cursor.line, s.cursor.col - 1⟩⟩
      else some s
  else if 0 < clampLine s then
    match s.lines[clampLine s]? with
    | none => none
    | some tail =>
      match (removeAt (clampLine s) s.lines)[clampLine s - 1]? with
      | none => none
      | some prevLine =>
        some ⟨(removeAt (clampLine s) s.lines).set (clampLine s - 1) (prevLine ++ tail),
              ⟨clampLine s - 1, prevLine.length⟩⟩
  else some s

/-- Line vector seen by `newline` after its emptiness guard. -/
def nlLines (s : EditorState) : List Str :=
  if s.lines.isEmpty then s.lines ++ [[]] else s.lines

/-- Clamped line index of `newline`. -/
def nlLine (s : EditorState) : Nat := min s.cursor.line ((nlLines s).length - 1)

/-- newline from main.rs: after ensuring at least one line, clamps the line
index and the column, and splits the addressed line at the clamped column
(`String::split_off`, which panics → `none` off a char boundary). -/
def newline (s : EditorState) : Option EditorState :=
  match (nlLines s)[nlLine s]? with
  | none => none
  | some cur =>
    if is_char_boundary cur (min s.cursor.col cur.length) then
      some ⟨insertAt (nlLine s + 1) (cur.drop (min s.cursor.col cur.length))
              ((nlLines s).set (nlLine s) (cur.take (min s.cursor.col cur.length))),
            ⟨nlLine s + 1, 0⟩⟩
    else none

/-- move_left from main.rs: one byte left, or wrap to the end of the previous
line (whose length is read by an unchecked index). -/
def move_left (s : EditorState) : Option EditorState :=
  if 0 < s.cursor.col then some ⟨s.lines, ⟨s.cursor.line, s.cursor.col - 1⟩⟩
  else if 0 < s.cursor.line then
    match s.lines[s.cursor.line - 1]? with
    | none => none
    | some l => some ⟨s.lines, ⟨s.cursor.line - 1, l.length⟩⟩
  else some s

/-- move_right from main.rs: reads `lines[cursor.line]` unconditionally (a
panic → `none` when the cursor line is out of range), then moves one byte
right or wraps to the start of the next line. -/
def move_right (s : EditorState) : Option EditorState :=
  match s.lines[s.cursor.line]? with
  | none => none
  | some cur =>
    if s.cursor.col < cur.length then some ⟨s.lines, ⟨s.cursor.line, s.cursor.col + 1⟩⟩
    else if s.cursor.line + 1 < s.lines.length then
      some ⟨s.lines, ⟨s.cursor.line + 1, 0⟩⟩
    else some s

/-- move_up from main.rs: decrement the line and clamp the column to the new
line's length. -/
def move_up (s : EditorState) : Option EditorState :=
  if 0 < s.cursor.line then
    match s.lines[s.cursor.line - 1]? with
    | none => none
    | some l => some ⟨s.lines, ⟨s.cursor.line - 1, min s.cursor.col l.length⟩⟩
  else some s

/-- move_down from main.rs: increment the line and clamp the column to the new
line's length. -/
def move_down (s : EditorState) : Option EditorState :=
  if s.cursor.line + 1 < s.lines.length then
    match s.lines[s.cursor.line + 1]? with
    | none => none
    | some l => some ⟨s.lines, ⟨s.cursor.line + 1, min s.cursor.col l.length⟩⟩
  else some s

/-- The editing operations of the cursor engine, exactly the ones named by the
reachability claim. -/
inductive EditOp where
  | insertChar (ch : Nat)
  | insertStr (t : List Nat)
  | backspace
  | newline
  | moveLeft
  | moveRight
  | moveUp
  | moveDown

/-- Dispatch one operation. -/
def applyOp : EditOp → EditorState → Option EditorState
  | .insertChar ch, s => insert_char ch s
  | .insertStr t, s => insert_str t s
  | .backspace, s => backspace s
  | .newline, s => newline s
  | .moveLeft, s => move_left s
  | .moveRight, s => move_right s
  | .moveUp, s => move_up s
  | .moveDown, s => move_down s

/-- The initial one-empty-line document with the cursor at the origin
(`EditorState::default` in main.rs). -/
def initState : EditorState := ⟨[[]], ⟨0, 0⟩⟩

/-- States reachable from the initial state by finite sequences of successful
(non-panicking) editing operations. -/
inductive Reachable : EditorState → Prop where
  | init : Reachable initState
  | step {s s' : EditorState} {op : EditOp} :
      Reachable s → applyOp op s = some s' → Reachable s'

/-- The cursor clamping invariant: the cursor line is a valid index and the
column is at most the addressed line's byte length. -/
def CursorInv (s : EditorState) : Prop :=
  s.cursor.line < s.lines.length ∧ s.cursor.col ≤ (lineAt s.lines s.cursor.line).length

/-- split on the newline character from main.rs (`text.split('\n')`): at least
one piece, pieces do not contain the separator. -/
def splitNl : Str → List Str
  | [] => [[]]
  | b :: rest =>
    if b = 10 then [] :: splitNl rest
    else
      match splitNl rest with
      | [] => [[b]]
      | l :: ls => (b :: l) :: ls

/-- split_lines_vec from main.rs, including its (dead) emptiness guard. -/
def split_lines_vec (text : Str) : List Str :=
  let v := splitNl text
  if v.isEmpty then [[]] else v

/-- join_lines from main.rs: `lines.join("\n")`. -/
def join_lines : List Str → Str
  | [] => []
  | [l] => l
  | l :: ls => l ++ 10 :: join_lines ls

/-- HighlightSpan from syntax.rs. -/
structure HighlightSpan where
  text : Str
  color : Str
deriving DecidableEq

/-- Rule from syntax.rs. The compiled `regex::Regex` is embedded abstractly as
its observable behaviour in this program: the list of `(start, end)` byte
ranges its non-overlapping leftmost-first `find_iter` yields on a line. -/
structure Rule where
  name : Str
  regex : Str → List (Nat × Nat)
  color : Str
  priority : Int

/-- Syntax from syntax.rs (named SyntaxDef here to avoid colliding with the
core `Syntax` type). -/
structure SyntaxDef where
  default_color : Str
  rules : List Rule

/-- SidelRule from syntax.rs: one `[[rule]]` entry of a parsed `.sidel` file. -/
structure SidelRule where
  name : Str
  pattern : Str
  color : Str
  priority : Int
deriving DecidableEq

/-- SidelFile from syntax.rs: a parsed `.sidel` definition. -/
structure SidelFile where
  default_color : Str
  rule : List SidelRule
deriving DecidableEq

/-- ManifestData from syntax.rs: extension mapping and the language set. -/
structure ManifestData where
  ext_to_lang : List (Str × Str)
  languages : List Str

/-- External collaborators of the loader, embedded as function parameters: the
manifest, the three-tier `.sidel` text lookup, the TOML deserializer of the
`toml` crate, and regex compilation of the `regex` crate (each `none` exactly
where the library call fails). -/
structure Env where
  manifest : ManifestData
  load_sidel_text : Str → Option Str
  parse_toml : Str → Option SidelFile
  compile_regex : Str → Option (Str → List (Nat × Nat))

/-- default_color from syntax.rs: the bytes of the neutral gray "#D4D4D4". -/
def default_color : Str := [35, 68, 52, 68, 52, 68, 52]

/-- fallback_syntax from syntax.rs: the no-rules fallback. -/
def fallback_syntax : SyntaxDef := ⟨ default_color, []⟩

/-- One compiled rule of `parse_sidel`: kept only if its pattern compiles. -/
def compileRule (compile : Str → Option (Str → List (Nat × Nat))) (r : SidelRule) :
    Option Rule :=
  (compile r.pattern).map (fun re => ⟨r.name, re, r.color, r.priority⟩)

/-- Stable insertion of a rule into a descending-priority list: the rule goes
after every strictly higher priority and before ties and lower priorities. -/
def insertRule (r : Rule) : List Rule → List Rule
  | [] => [r]
  | x :: xs => if r.priority < x.priority then x :: insertRule r xs else r :: x :: xs

/-- The `rules.sort_by(|a, b| b.priority.cmp(&a.priority))` step of
`parse_sidel`. Rust guarantees a stable sort; a stable sort by a fixed
comparator is extensionally unique, so this stable insertion sort is the same
function. -/
def sortRules : List Rule → List Rule
  | [] => []
  | x :: xs => insertRule x (sortRules xs)

/-- parse_sidel from syntax.rs: deserialize, keep the rules whose patterns
compile (in declaration order), then stable-sort by descending priority. -/
def parse_sidel (env : Env) (toml_text : Str) : Option SyntaxDef :=
  match env.parse_toml toml_text with
  | none => none
  | some parsed =>
    some ⟨parsed.default_color,
          sortRules (parsed.rule.filterMap (compileRule env.compile_regex))⟩

/-- The process-wide syntax cache, embedded as the association list of its
entries (newest first), threaded through `load_syntax` explicitly. -/
abbrev Cache := List (Str × SyntaxDef)

/-- Lookup in the cache by language name. -/
def cacheLookup : Cache → Str → Option SyntaxDef
  | [], _ => none
  | (k, v) :: rest, lang => if k = lang then some v else cacheLookup rest lang

/-- load_syntax from syntax.rs: cache hit first; unknown languages
short-circuit to the fallback without touching the loader; otherwise load,
parse (falling back on failure), and insert into the cache. -/
def load_syntax (env : Env) (cache : Cache) (language : Str) : SyntaxDef × Cache :=
  match cacheLookup cache language with
  | some hit => (hit, cache)
  | none =>
    if language ∈ env.manifest.languages then
      let syn :=
        match env.load_sidel_text language with
        | some content => (parse_sidel env content).getD fallback_syntax
        | none => fallback_syntax
      (syn, (language, syn) :: cache)
    else ( fallback_syntax, cache)

/-- One pass of the per-byte assignment loop `for i in start..end`, walking the
color array with its index: a unit is colored only if still unassigned. -/
def assignFrom (c : Str) (a b : Nat) : Nat → List (Option Str) → List (Option Str)
  | _, [] => []
  | i, v :: rest =>
    (if a ≤ i ∧ i < b ∧ v = none then some c else v) :: assignFrom c a b (i + 1) rest

/-- Application of one regex match `(start, end)`: the end is capped at the
line length as in the source (`m.end().min(bytes.len())`). -/
def applyMatch (c : Str) (m : Nat × Nat) (colorAt : List (Option Str)) :
    List (Option Str) :=
  assignFrom c m.1 (min m.2 colorAt.length) 0 colorAt

/-- Application of one rule: its matches left to right. -/
def applyRule (line : Str) (r : Rule) (colorAt : List (Option Str)) :
    List (Option Str) :=
  (r.regex line).foldl (fun ca m => applyMatch r.color m ca) colorAt

/-- Application of all rules in list order (highest priority first after
`sortRules`). -/
def applyRules (line : Str) (rules : List Rule) (colorAt : List (Option Str)) :
    List (Option Str) :=
  rules.foldl (fun ca r => applyRule line r ca) colorAt

/-- The span-collapsing scan of `highlight_line`: walk the zipped
(byte, effective color) list left to right, extending the current span while
the color matches and emitting it when it changes. -/
def collapseGo : List (Nat × Str) → Str → Str → List HighlightSpan
  | [], curText, curColor => [⟨curText, curColor⟩]
  | (b, c) :: rest, curText, curColor =>
    if c == curColor then collapseGo rest (curText ++ [b]) curColor
    else ⟨curText, curColor⟩ :: collapseGo rest [b] c

/-- Collapse a (byte, effective color) list into maximal same-color spans. -/
def collapse : List (Nat × Str) → List HighlightSpan
  | [] => []
  | (b, c) :: rest => collapseGo rest [b] c

/-- The pure core of highlight_line from syntax.rs, applied to an already
loaded syntax definition: the single-span fast path, the per-byte color grid
filled in rule order with first-assignment-wins, unset bytes taking the
default color (`unwrap_or` at every read, precomputed here by one map), and
the collapse into maximal spans. -/
def highlight_spans (syn : SyntaxDef) (line : Str) : List HighlightSpan :=
  if syn.rules.isEmpty || line.isEmpty then [⟨line, syn.default_color⟩]
  else
    collapse (line.zip ((applyRules line syn.rules (List.replicate line.length none)).map
      (fun v => v.getD syn.default_color)))

/-- highlight_line from syntax.rs: fetch the language's definition through
`load_syntax` (whose cache-update side effect does not influence the spans)
and run the span computation. -/
def highlight_line (env : Env) (cache : Cache) (language line : Str) :
    List HighlightSpan :=
  highlight_spans ( load_syntax env cache language).1 line

/-- Whether a byte is an ASCII digit (the `\d` class on this input). -/
def isDigitByte (b : Nat) : Bool := decide (48 ≤ b) && decide (b ≤ 57)

/-- Matches of a literal pattern, leftmost-first and non-overlapping, as
`regex::Regex::find_iter` yields them for a literal regex such as "let". The
fuel is the input length, enough for the whole scan. -/
def litFind (pat : Str) : Nat → Str → Nat → List (Nat × Nat)
  | 0, _, _ => []
  | fuel + 1, s, i =>
    match s with
    | [] => []
    | b :: rest =>
      if pat ≠ [] ∧ pat.isPrefixOf (b :: rest) then
        (i, i + pat.length) :: litFind pat fuel ((b :: rest).drop pat.length) (i + pat.length)
      else litFind pat fuel rest (i + 1)

/-- Matcher of a literal pattern over a whole line. -/
def litMatcher (pat : Str) (s : Str) : List (Nat × Nat) :=
  litFind pat s.length s 0

/-- Matches of the pattern "\d+": maximal runs of ASCII digits, leftmost-first
and non-overlapping, as `find_iter` yields them. -/
def digitFind : Nat → Str → Nat → List (Nat × Nat)
  | 0, _, _ => []
  | fuel + 1, s, i =>
    match s with
    | [] => []
    | b :: rest =>
      if isDigitByte b then
        let run := (b :: rest).takeWhile isDigitByte
        (i, i + run.length) :: digitFind fuel ((b :: rest).drop run.length) (i + run.length)
      else digitFind fuel rest (i + 1)

/-- Matcher of "\d+" over a whole line. -/
def digitMatcher (s : Str) : List (Nat × Nat) :=
  digitFind s.length s 0

/-- Color A of the priority example (an arbitrary concrete color). -/
def colorA : Str := [65]

/-- Color B of the priority example. -/
def colorB : Str := [66]

/-- Default color D of the priority example. -/
def colorD : Str := [68]

/-- Pattern bytes of the literal rule "let". -/
def patLet : Str := [108, 101, 116]

/-- Pattern bytes of the digit rule "\d+". -/
def patDig : Str := [92, 100, 43]

/-- Regex compilation for the example's two patterns. -/
def exCompile : Str → Option (Str → List (Nat × Nat)) := fun pat =>
  if pat = patLet then some (litMatcher patLet)
  else if pat = patDig then some digitMatcher
  else none

/-- The example definition: rule "let" with priority 10 and color A, rule
"\d+" with priority 5 and color B, default color D. -/
def exFile : SidelFile := ⟨ colorD, [⟨[], patLet, colorA, 10⟩, ⟨[], patDig, colorB, 5⟩]⟩

/-- Environment whose deserializer yields the example definition. -/
def exEnv : Env := ⟨⟨[], []⟩, fun _ => none, fun _ => some exFile, exCompile⟩

/-- The example's compiled syntax definition, obtained through parse_sidel. -/
def exSyn : SyntaxDef := (parse_sidel exEnv []).getD fallback_syntax

/-- The bytes of the example line "let x = 5;". -/
def exLine : Str := [108, 101, 116, 32, 120, 32, 61, 32, 53, 59]

/-- Cache states whose every key is a manifest language; this holds for every
cache the program can build, because `load_syntax` inserts only after the
membership check. -/
def CacheOK (env : Env) (cache : Cache) : Prop :=
  ∀ k syn, cacheLookup cache k = some syn → k ∈ env.manifest.languages

/-- line_px from main.rs: `(FONT_PX * LINE_HEIGHT_EM).round()` with
`FONT_PX = 14.0` and `LINE_HEIGHT_EM = 1.4`; both the `f64` computation and
this exact rational one round to 20. -/
def line_px : ℚ := round ((14 : ℚ) * (1.4 : ℚ))

/-- visible_range from main.rs. The `as isize`/`as usize` casts saturate, which
`Int.toNat` after `max` reproduces; `saturating_add` cannot saturate on `ℕ`. -/
def visible_range (scroll_top viewport_h : ℚ) (total_lines : Nat) :
    Nat × Nat × ℚ × ℚ :=
  if total_lines = 0 then (0, 0, 0, 0)
  else
    let lp := line_px
    let buffer : Nat := 20
    let start := (max (⌊scroll_top / lp⌋) 0).toNat
    let visible := (⌈viewport_h / lp⌉).toNat + buffer
    let e := min (start + visible) total_lines
    (start, e, (start : ℚ) * lp, ((total_lines - e : Nat) : ℚ) * lp)

/-! Helper lemmas about UTF-8 strings and list surgery. -/

theorem utf8Encode_length (c : Nat) : (utf8Encode c).length = utf8Len c := by
  unfold utf8Encode utf8Len
  split_ifs <;> rfl

theorem boundary_le_length {s : Str} {i : Nat} (h : is_char_boundary s i = true) :
    i ≤ s.length := by
  unfold is_char_boundary at h
  rcases hg : s[i]? with _ | b
  · simp only [hg] at h
    simp at h
    omega
  · obtain ⟨hlt, -⟩ := List.getElem?_eq_some_iff.mp hg
    exact le_of_lt hlt

theorem string_insert_some {s : Str} {i ch : Nat} {out : Str}
    (h : string_insert s i ch = some out) :
    i ≤ s.length ∧ out.length = s.length + utf8Len ch := by
  unfold string_insert at h
  split at h
  · rename_i hb
    cases h
    have hle := boundary_le_length hb
    constructor
    · exact hle
    · simp [utf8Encode_length]
      omega
  · exact absurd h (by simp)

theorem string_remove_some {s : Str} {i : Nat} {out : Str}
    (h : string_remove s i = some out) :
    ∃ w, 1 ≤ w ∧ i + w ≤ s.length ∧ out = s.take i ++ s.drop (i + w) ∧
      out.length = s.length - w := by
  unfold string_remove at h
  split at h
  · exact absurd h (by simp)
  · rename_i b hg
    split at h
    · rename_i hcond
      obtain ⟨hb, hw, hle⟩ := hcond
      cases h
      refine ⟨utf8CharWidth b, hw, hle, rfl, ?_⟩
      simp
      omega
    · exact absurd h (by simp)

theorem lineAt_set_self {lines : List Str} {i : Nat} (h : i < lines.length) (a : Str) :
    lineAt (lines.set i a) i = a := by
  unfold lineAt
  rw [List.getElem?_set_self (by simpa using h)]
  rfl

theorem length_removeAt {l : List α} {n : Nat} (h : n < l.length) :
    (removeAt n l).length = l.length - 1 := by
  unfold removeAt
  simp
  omega

theorem insertAt_set_succ {α : Type} : ∀ (l : List α) (L : Nat), L < l.length → ∀ (a b : α),
    insertAt (L + 1) b (l.set L a) = l.take L ++ a :: b :: l.drop (L + 1) := by
  intro l
  induction l with
  | nil => intro L h; simp at h
  | cons x xs ih =>
    intro L h a b
    cases L with
    | zero => rfl
    | succ L =>
      have := ih L (by simpa using h) a b
      simp only [List.set_cons_succ, insertAt, List.take_succ_cons, List.drop_succ_cons] at this ⊢
      simp [this]

/-! Preservation of the cursor invariant by every editing operation. -/

theorem insert_char_inv {ch : Nat} {s s' : EditorState}
    (h : insert_char ch s = some s') : CursorInv s' := by
  unfold insert_char at h
  split at h
  · exact absurd h (by simp)
  · rename_i cur hg
    split at h
    · exact absurd h (by simp)
    · rename_i newLine hins
      cases h
      obtain ⟨hcol, hlen⟩ := string_insert_some hins
      obtain ⟨hlt, hget⟩ := List.getElem?_eq_some_iff.mp hg
      constructor
      · simpa using hlt
      · show s.cursor.col + utf8Len ch ≤ _
        rw [show (⟨(insertTarget s).set s.cursor.line newLine,
              ⟨s.cursor.line, s.cursor.col + utf8Len ch⟩⟩ : EditorState).lines
            = (insertTarget s).set s.cursor.line newLine from rfl]
        rw [lineAt_set_self hlt]
        omega

theorem backspace_inv {s s' : EditorState} (hs : CursorInv s)
    (h : backspace s = some s') : CursorInv s' := by
  obtain ⟨hline, hcol⟩ := hs
  have hcl : clampLine s = s.cursor.line := by unfold clampLine; omega
  unfold backspace at h
  split at h
  · cases h
    exact ⟨by decide, by decide⟩
  · split at h
    · split at h
      · exact absurd h (by simp)
      · rename_i hne hpos cur hg
        split at h
        · split at h
          · exact absurd h (by simp)
          · rename_i hcle newLine hrem
            cases h
            obtain ⟨w, hw1, hwle, hout, hlen⟩ := string_remove_some hrem
            refine ⟨by simpa using hline, ?_⟩
            show s.cursor.col - 1 ≤ _
            have : lineAt (s.lines.set (clampLine s) newLine) s.cursor.line = newLine := by
              rw [hcl]
              exact lineAt_set_self hline newLine
            rw [this, hlen]
            omega
        · cases h
          exact ⟨hline, hcol⟩
    · split at h
      · split at h
        · exact absurd h (by simp)
        · rename_i hne h0 hpos tail hg
          split at h
          · exact absurd h (by simp)
          · rename_i prevLine hp
            cases h
            have hrl : (removeAt (clampLine s) s.lines).length = s.lines.length - 1 :=
              length_removeAt (by omega)
            have hidx : clampLine s - 1 < (removeAt (clampLine s) s.lines).length := by
              rw [hrl]; omega
            refine ⟨?_, ?_⟩
            · simpa using hidx
            · show prevLine.length ≤ _
              have := lineAt_set_self hidx (prevLine ++ tail)
              rw [this]
              simp
      · cases h
        exact ⟨hline, hcol⟩

theorem newline_inv {s s' : EditorState} (h : newline s = some s') : CursorInv s' := by
  unfold newline at h
  split at h
  · exact absurd h (by simp)
  · rename_i cur hg
    split at h
    · rename_i hb
      cases h
      obtain ⟨hlt, -⟩ := List.getElem?_eq_some_iff.mp hg
      have hlen : (insertAt (nlLine s + 1) (cur.drop (min s.cursor.col cur.length))
          ((nlLines s).set (nlLine s) (cur.take (min s.cursor.col cur.length)))).length
          = (nlLines s).length + 1 := by
        unfold insertAt
        simp
        omega
      refine ⟨?_, by simp⟩
      show nlLine s + 1 < _
      rw [show (⟨insertAt (nlLine s + 1) (cur.drop (min s.cursor.col cur.length))
            ((nlLines s).set (nlLine s) (cur.take (min s.cursor.col cur.length))),
            ⟨nlLine s + 1, 0⟩⟩ : EditorState).lines = insertAt (nlLine s + 1) _ _ from rfl]
      rw [hlen]
      omega
    · exact absurd h (by simp)

theorem move_left_inv {s s' : EditorState} (hs : CursorInv s)
    (h : move_left s = some s') : CursorInv s' := by
  obtain ⟨hline, hcol⟩ := hs
  unfold move_left at h
  split at h
  · cases h
    exact ⟨hline, by simp; omega⟩
  · split at h
    · split at h
      · exact absurd h (by simp)
      · rename_i l hg
        cases h
        obtain ⟨hlt, -⟩ := List.getElem?_eq_some_iff.mp hg
        refine ⟨hlt, ?_⟩
        show l.length ≤ _
        simp [lineAt, hg]
    · cases h
      exact ⟨hline, hcol⟩

theorem move_right_inv {s s' : EditorState} (hs : CursorInv s)
    (h : move_right s = some s') : CursorInv s' := by
  obtain ⟨hline, hcol⟩ := hs
  unfold move_right at h
  split at h
  · exact absurd h (by simp)
  · rename_i cur hg
    split at h
    · cases h
      rename_i hlt
      refine ⟨hline, ?_⟩
      show s.cursor.col + 1 ≤ _
      simp [lineAt, hg]
      omega
    · split at h
      · cases h
        rename_i hnext
        exact ⟨hnext, by simp⟩
      · cases h
        exact ⟨hline, hcol⟩

theorem move_up_inv {s s' : EditorState} (hs : CursorInv s)
    (h : move_up s = some s') : CursorInv s' := by
  obtain ⟨hline, hcol⟩ := hs
  unfold move_up at h
  split at h
  · split at h
    · exact absurd h (by simp)
    · rename_i l hg
      cases h
      obtain ⟨hlt, -⟩ := List.getElem?_eq_some_iff.mp hg
      refine ⟨hlt, ?_⟩
      show min s.cursor.col l.length ≤ _
      simp [lineAt, hg]
  · cases h
    exact ⟨hline, hcol⟩

theorem move_down_inv {s s' : EditorState} (hs : CursorInv s)
    (h : move_down s = some s') : CursorInv s' := by
  obtain ⟨hline, hcol⟩ := hs
  unfold move_down at h
  split at h
  · split at h
    · exact absurd h (by simp)
    · rename_i l hg
      cases h
      obtain ⟨hlt, -⟩ := List.getElem?_eq_some_iff.mp hg
      refine ⟨hlt, ?_⟩
      show min s.cursor.col l.length ≤ _
      simp [lineAt, hg]
  · cases h
    exact ⟨hline, hcol⟩

theorem insert_str_inv : ∀ {t : List Nat} {s s' : EditorState}, CursorInv s →
    insert_str t s = some s' → CursorInv s' := by
  intro t
  induction t with
  | nil =>
    intro s s' hs h
    unfold insert_str at h
    cases h
    exact hs
  | cons c rest ih =>
    intro s s' hs h
    unfold insert_str at h
    split at h
    · exact absurd h (by simp)
    · rename_i s1 h1
      exact ih (insert_char_inv h1) h

theorem applyOp_inv {op : EditOp} {s s' : EditorState} (hs : CursorInv s)
    (h : applyOp op s = some s') : CursorInv s' := by
  cases op with
  | insertChar ch => exact insert_char_inv h
  | insertStr t => exact insert_str_inv hs h
  | backspace => exact backspace_inv hs h
  | newline => exact newline_inv h
  | moveLeft => exact move_left_inv hs h
  | moveRight => exact move_right_inv hs h
  | moveUp => exact move_up_inv hs h
  | moveDown => exact move_down_inv hs h

theorem reachable_inv {s : EditorState} (h : Reachable s) : CursorInv s := by
  induction h with
  | init => exact ⟨by decide, by decide⟩
  | @step s1 s2 op hr hstep ih => exact applyOp_inv ih hstep

/-- The state reached from the initial document by inserting the two-byte
character U+00E9 and moving one byte left: the cursor column sits strictly
inside the character's encoding. -/
theorem reachable_eacute_mid : Reachable ⟨[[195, 169]], ⟨0, 1⟩⟩ :=
  @Reachable.step ⟨[[195, 169]], ⟨0, 2⟩⟩ ⟨[[195, 169]], ⟨0, 1⟩⟩ EditOp.moveLeft
    (@Reachable.step initState ⟨[[195, 169]], ⟨0, 2⟩⟩ (EditOp.insertChar 233)
      Reachable.init (by decide)) (by decide)

/-! Helper lemmas for line splitting and joining. -/

theorem splitNl_ne_nil : ∀ s : Str, splitNl s ≠ [] := by
  intro s
  induction s with
  | nil => simp [splitNl]
  | cons b rest ih =>
    simp only [splitNl]
    split
    · simp
    · cases h : splitNl rest <;> simp

theorem join_splitNl : ∀ s : Str, join_lines (splitNl s) = s := by
  intro s
  induction s with
  | nil => rfl
  | cons b rest ih =>
    by_cases hb : b = 10
    · subst hb
      simp only [splitNl, if_pos rfl]
      rcases h : splitNl rest with _ | ⟨l, ls⟩
      · exact absurd h (splitNl_ne_nil rest)
      · rw [h] at ih
        simp [join_lines, ih]
    · simp only [splitNl, if_neg hb]
      rcases h : splitNl rest with _ | ⟨l, ls⟩
      · exact absurd h (splitNl_ne_nil rest)
      · rw [h] at ih
        rcases ls with _ | ⟨l2, ls2⟩
        · simpa [join_lines] using congrArg (b :: ·) ih
        · simp only [join_lines] at ih ⊢
          rw [← ih]
          simp

theorem line_px_eq : line_px = 20 := by
  rw [line_px, round_eq]
  norm_num

/-! Helper lemmas for the highlighter. -/

theorem assignFrom_length (c : Str) (a b : Nat) :
    ∀ (i : Nat) (l : List (Option Str)), (assignFrom c a b i l).length = l.length := by
  intro i l
  induction l generalizing i with
  | nil => rfl
  | cons v rest ih => simp [assignFrom, ih]

theorem applyMatch_length (c : Str) (m : Nat × Nat) (ca : List (Option Str)) :
    (applyMatch c m ca).length = ca.length :=
  assignFrom_length c m.1 (min m.2 ca.length) 0 ca

theorem applyRule_length (line : Str) (r : Rule) :
    ∀ ca : List (Option Str), (applyRule line r ca).length = ca.length := by
  unfold applyRule
  generalize r.regex line = ms
  induction ms with
  | nil => intro ca; rfl
  | cons m ms ih =>
    intro ca
    rw [List.foldl_cons, ih, applyMatch_length]

theorem applyRules_length (line : Str) :
    ∀ (rules : List Rule) (ca : List (Option Str)),
      (applyRules line rules ca).length = ca.length := by
  intro rules
  unfold applyRules
  induction rules with
  | nil => intro ca; rfl
  | cons r rs ih =>
    intro ca
    rw [List.foldl_cons, ih, applyRule_length]

theorem collapseGo_join : ∀ (ps : List (Nat × Str)) (t c : Str),
    (List.map HighlightSpan.text (collapseGo ps t c)).flatten = t ++ ps.map Prod.fst := by
  intro ps
  induction ps with
  | nil => intro t c; simp [collapseGo]
  | cons p rest ih =>
    intro t c
    obtain ⟨b, pc⟩ := p
    simp only [collapseGo]
    split
    · rw [ih]
      simp
    · simp only [List.map_cons, List.flatten]
      rw [ih]
      simp

theorem collapseGo_head_color : ∀ (ps : List (Nat × Str)) (t c : Str),
    ((collapseGo ps t c).head?).map HighlightSpan.color = some c := by
  intro ps
  induction ps with
  | nil => intro t c; simp [collapseGo]
  | cons p rest ih =>
    intro t c
    obtain ⟨b, pc⟩ := p
    simp only [collapseGo]
    split
    · exact ih _ _
    · simp

theorem collapseGo_chain : ∀ (ps : List (Nat × Str)) (t c : Str),
    List.Chain' (fun a b : HighlightSpan => a.color ≠ b.color) (collapseGo ps t c) := by
  intro ps
  induction ps with
  | nil => intro t c; simp [collapseGo]
  | cons p rest ih =>
    intro t c
    obtain ⟨b, pc⟩ := p
    simp only [collapseGo]
    split
    · exact ih _ _
    · rename_i hbc
      rw [List.chain'_cons']
      refine ⟨?_, ih _ _⟩
      intro y hy
      have hc := collapseGo_head_color rest [b] pc
      rw [hy] at hc
      simp at hc
      show (⟨t, c⟩ : HighlightSpan).color ≠ y.color
      rw [hc]
      simp at hbc
      exact fun hcc => hbc (hcc ▸ rfl)

theorem collapse_join (ps : List (Nat × Str)) :
    (List.map HighlightSpan.text (collapse ps)).flatten = ps.map Prod.fst := by
  cases ps with
  | nil => rfl
  | cons p rest =>
    obtain ⟨b, c⟩ := p
    simp only [collapse]
    rw [collapseGo_join]
    rfl

theorem collapse_chain (ps : List (Nat × Str)) :
    List.Chain' (fun a b : HighlightSpan => a.color ≠ b.color) (collapse ps) := by
  cases ps with
  | nil => simp [collapse]
  | cons p rest =>
    obtain ⟨b, c⟩ := p
    simp only [collapse]
    exact collapseGo_chain _ _ _

theorem highlight_spans_partition (syn : SyntaxDef) (line : Str) :
    (List.map HighlightSpan.text (highlight_spans syn line)).flatten = line ∧
    List.Chain' (fun a b : HighlightSpan => a.color ≠ b.color) (highlight_spans syn line) := by
  unfold highlight_spans
  split
  · simp
  · constructor
    · rw [collapse_join]
      apply List.map_fst_zip
      rw [List.length_map, applyRules_length, List.length_replicate]
    · exact collapse_chain _

/-! Helper lemmas for rule sorting (stability, order, permutation) and for the
first-assignment-wins discipline. -/

theorem mem_insertRule {r y : Rule} : ∀ {l : List Rule}, y ∈ insertRule r l ↔ y = r ∨ y ∈ l := by
  intro l
  induction l with
  | nil => simp [insertRule]
  | cons x xs ih =>
    simp only [insertRule]
    split
    · simp only [List.mem_cons, ih]
      tauto
    · simp only [List.mem_cons]

theorem insertRule_sorted {l : List Rule} (r : Rule)
    (h : List.Sorted (fun a b : Rule => b.priority ≤ a.priority) l) :
    List.Sorted (fun a b : Rule => b.priority ≤ a.priority) (insertRule r l) := by
  induction l with
  | nil => simp [insertRule]
  | cons x xs ih =>
    rw [List.sorted_cons] at h
    obtain ⟨hx, hxs⟩ := h
    simp only [insertRule]
    split
    · rename_i hlt
      rw [List.sorted_cons]
      refine ⟨?_, ih hxs⟩
      intro y hy
      rcases mem_insertRule.mp hy with rfl | hy'
      · omega
      · exact hx y hy'
    · rename_i hge
      rw [List.sorted_cons]
      refine ⟨?_, List.sorted_cons.mpr ⟨hx, hxs⟩⟩
      intro y hy
      rcases List.mem_cons.mp hy with rfl | hy'
      · omega
      · have := hx y hy'
        omega

theorem sortRules_sorted : ∀ l : List Rule,
    List.Sorted (fun a b : Rule => b.priority ≤ a.priority) (sortRules l) := by
  intro l
  induction l with
  | nil => simp [sortRules]
  | cons x xs ih => exact insertRule_sorted x ih

theorem insertRule_perm (r : Rule) : ∀ l : List Rule, List.Perm (insertRule r l) (r :: l) := by
  intro l
  induction l with
  | nil => exact List.Perm.refl _
  | cons x xs ih =>
    simp only [insertRule]
    split
    · exact (List.Perm.cons x ih).trans (List.Perm.swap r x xs)
    · exact List.Perm.refl _

theorem sortRules_perm : ∀ l : List Rule, List.Perm (sortRules l) l := by
  intro l
  induction l with
  | nil => exact List.Perm.refl _
  | cons x xs ih => exact (insertRule_perm x (sortRules xs)).trans (List.Perm.cons x ih)

theorem filter_insertRule (p : Int) (r : Rule) : ∀ l : List Rule,
    (insertRule r l).filter (fun x => x.priority == p)
      = if r.priority = p then r :: l.filter (fun x => x.priority == p)
        else l.filter (fun x => x.priority == p) := by
  intro l
  induction l with
  | nil =>
    rw [show insertRule r [] = [r] from rfl, List.filter_cons]
    by_cases hrp : r.priority = p
    · simp [hrp]
    · simp [hrp]
  | cons x xs ih =>
    simp only [insertRule]
    split
    · rename_i hlt
      by_cases hrp : r.priority = p
      · have hxp : (x.priority == p) = false := by
          simp only [beq_eq_false_iff_ne, ne_eq]
          omega
        rw [List.filter_cons, hxp, if_neg (by simp), ih, if_pos hrp, if_pos hrp]
        rw [List.filter_cons, hxp, if_neg (by simp)]
      · rw [List.filter_cons, ih, if_neg hrp, if_neg hrp, List.filter_cons]
    · rename_i hge
      by_cases hrp : r.priority = p
      · rw [if_pos hrp, List.filter_cons]
        have : (r.priority == p) = true := by simp [hrp]
        rw [this, if_pos (by simp)]
      · rw [if_neg hrp, List.filter_cons]
        have : (r.priority == p) = false := by simp [hrp]
        rw [this, if_neg (by simp)]

theorem sortRules_filter (p : Int) : ∀ l : List Rule,
    (sortRules l).filter (fun x => x.priority == p) = l.filter (fun x => x.priority == p) := by
  intro l
  induction l with
  | nil => rfl
  | cons x xs ih =>
    show (insertRule x (sortRules xs)).filter _ = _
    rw [filter_insertRule]
    by_cases hxp : x.priority = p
    · rw [if_pos hxp, ih, List.filter_cons]
      have : (x.priority == p) = true := by simp [hxp]
      rw [this, if_pos (by simp)]
    · rw [if_neg hxp, ih, List.filter_cons]
      have : (x.priority == p) = false := by simp [hxp]
      rw [this, if_neg (by simp)]

theorem assignFrom_preserve (c : Str) (a b : Nat) :
    ∀ (l : List (Option Str)) (i j : Nat) (c₀ : Str),
      l[j]? = some (some c₀) → (assignFrom c a b i l)[j]? = some (some c₀) := by
  intro l
  induction l with
  | nil => intro i j c₀ h; simp at h
  | cons v rest ih =>
    intro i j c₀ h
    cases j with
    | zero =>
      simp only [List.getElem?_cons_zero, Option.some_inj] at h
      subst h
      simp [assignFrom]
    | succ j =>
      simp only [List.getElem?_cons_succ] at h
      simp only [assignFrom, List.getElem?_cons_succ]
      exact ih (i + 1) j c₀ h

theorem applyMatch_preserve (c : Str) (m : Nat × Nat) (ca : List (Option Str))
    (j : Nat) (c₀ : Str) (h : ca[j]? = some (some c₀)) :
    (applyMatch c m ca)[j]? = some (some c₀) :=
  assignFrom_preserve c m.1 (min m.2 ca.length) ca 0 j c₀ h

theorem applyRule_preserve (line : Str) (r : Rule) :
    ∀ (ca : List (Option Str)) (j : Nat) (c₀ : Str),
      ca[j]? = some (some c₀) → (applyRule line r ca)[j]? = some (some c₀) := by
  unfold applyRule
  generalize r.regex line = ms
  induction ms with
  | nil => intro ca j c₀ h; exact h
  | cons m ms ih =>
    intro ca j c₀ h
    rw [List.foldl_cons]
    exact ih _ j c₀ (applyMatch_preserve _ m ca j c₀ h)

theorem applyRules_preserve (line : Str) :
    ∀ (rules : List Rule) (ca : List (Option Str)) (j : Nat) (c₀ : Str),
      ca[j]? = some (some c₀) → (applyRules line rules ca)[j]? = some (some c₀) := by
  intro rules
  unfold applyRules
  induction rules with
  | nil => intro ca j c₀ h; exact h
  | cons r rs ih =>
    intro ca j c₀ h
    rw [List.foldl_cons]
    exact ih _ j c₀ (applyRule_preserve line r ca j c₀ h)

/-! The ten claims. -/

/-- C1: for every Document and Cursor state reachable from the initial
one-empty-line document by any finite sequence of the defined operations
(insert_char, insert_str, backspace, newline, move_left, move_right, move_up,
move_down), `cursor.line` is a valid index into the lines vector and
`cursor.col` is at most the byte length of the line it addresses. -/
theorem C1_cursor_clamping_invariant :
    ∀ s : EditorState, Reachable s →
      s.cursor.line < s.lines.length ∧
      s.cursor.col ≤ (lineAt s.lines s.cursor.line).length :=
  fun _ h => reachable_inv h

theorem C1_cursor_clamping_invariant_witness :
    (⟨[[195, 169]], ⟨0, 1⟩⟩ : EditorState).cursor.line
        < (⟨[[195, 169]], ⟨0, 1⟩⟩ : EditorState).lines.length
    ∧ (⟨[[195, 169]], ⟨0, 1⟩⟩ : EditorState).cursor.col
        ≤ (lineAt (⟨[[195, 169]], ⟨0, 1⟩⟩ : EditorState).lines
             (⟨[[195, 169]], ⟨0, 1⟩⟩ : EditorState).cursor.line).length :=
  C1_cursor_clamping_invariant ⟨[[195, 169]], ⟨0, 1⟩⟩ reachable_eacute_mid

/-- C2: for every language name and every line (over every environment and
cache state), the spans returned by highlight_line are a lossless partition of
the line — concatenating their text fields in order reproduces the line
exactly — and no two adjacent spans have the same color (maximal merge). -/
theorem C2_highlight_lossless_partition :
    ∀ (env : Env) (cache : Cache) (language line : Str),
      (List.map HighlightSpan.text (highlight_line env cache language line)).flatten = line ∧
      List.Chain' (fun a b : HighlightSpan => a.color ≠ b.color)
        (highlight_line env cache language line) := by
  intro env cache language line
  unfold highlight_line
  exact highlight_spans_partition _ line

/-- C3: highlight_line resolves overlaps by priority — parse_sidel sorts rules
by descending priority, stably (ties keep declaration order: filtering the
sorted list at each priority returns the original declaration-order sublist),
a unit already assigned is never overwritten by a later (lower-priority) rule,
and the concrete example (rule "let" priority 10 color A, rule "\d+" priority
5 color B, default D) highlights "let x = 5;" as exactly
["let"→A, " x = "→D, "5"→B, ";"→D]. -/
theorem C3_priority_resolution :
    (∀ (env : Env) (toml_text : Str) (f : SidelFile), env.parse_toml toml_text = some f →
        parse_sidel env toml_text
          = some ⟨f.default_color,
                  sortRules (f.rule.filterMap (compileRule env.compile_regex))⟩
        ∧ List.Sorted (fun a b : Rule => b.priority ≤ a.priority)
            (sortRules (f.rule.filterMap (compileRule env.compile_regex)))
        ∧ ∀ p : Int,
            (sortRules (f.rule.filterMap (compileRule env.compile_regex))).filter
                (fun x => x.priority == p)
              = (f.rule.filterMap (compileRule env.compile_regex)).filter
                  (fun x => x.priority == p))
    ∧ (∀ (line : Str) (rules : List Rule) (colorAt : List (Option Str)) (j : Nat) (c₀ : Str),
        colorAt[j]? = some (some c₀) → (applyRules line rules colorAt)[j]? = some (some c₀))
    ∧ highlight_spans exSyn exLine
        = [⟨[108, 101, 116], colorA⟩, ⟨[32, 120, 32, 61, 32], colorD⟩,
           ⟨[53], colorB⟩, ⟨[59], colorD⟩] := by
  refine ⟨?_, applyRules_preserve, ?_⟩
  · intro env toml_text f hf
    refine ⟨?_, sortRules_sorted _, fun p => sortRules_filter p _⟩
    unfold parse_sidel
    rw [hf]
  · decide

theorem C3_priority_resolution_witness :
    (applyRules [] [] [some [65]])[0]? = some (some [65]) :=
  C3_priority_resolution.2.1 [] [] [some [65]] 0 [65] rfl

/-- C4: for every state whose cursor sits at (line = L, col = 0) with L > 0
(and L a valid line index), backspace removes line L, appends its text to the
end of line L-1, decreases the line count by exactly 1, makes the merged
line's byte length the sum of the two original lengths, and leaves the cursor
at (L-1, former byte length of line L-1). -/
theorem C4_backspace_line_merge (s : EditorState) (L : Nat)
    (hc : s.cursor = ⟨L, 0⟩) (hL : 0 < L) (hlen : L < s.lines.length) :
    ∃ s', backspace s = some s' ∧
      s'.lines.length = s.lines.length - 1 ∧
      lineAt s'.lines (L - 1) = lineAt s.lines (L - 1) ++ lineAt s.lines L ∧
      (lineAt s'.lines (L - 1)).length
        = (lineAt s.lines (L - 1)).length + (lineAt s.lines L).length ∧
      s'.cursor = ⟨L - 1, (lineAt s.lines (L - 1)).length⟩ := by
  have hemp : s.lines.isEmpty = false := by
    cases hls : s.lines
    · rw [hls] at hlen; simp at hlen
    · rfl
  have hcl : clampLine s = L := by
    unfold clampLine
    rw [hc]
    simp
    omega
  have hcol0 : s.cursor.col = 0 := by rw [hc]
  have hgL : s.lines[L]? = some (lineAt s.lines L) := by
    simp [lineAt, List.getElem?_eq_getElem hlen]
  have hprev : (removeAt L s.lines)[L - 1]? = some (lineAt s.lines (L - 1)) := by
    unfold removeAt
    rw [List.getElem?_append_left (by simp; omega)]
    rw [List.getElem?_take_of_lt (by omega)]
    simp [lineAt, List.getElem?_eq_getElem (show L - 1 < s.lines.length by omega)]
  have hbs : backspace s = some ⟨(removeAt L s.lines).set (L - 1)
      (lineAt s.lines (L - 1) ++ lineAt s.lines L),
      ⟨L - 1, (lineAt s.lines (L - 1)).length⟩⟩ := by
    unfold backspace
    rw [hemp, hcol0, hcl]
    simp only [Bool.false_eq_true, if_false, Nat.lt_irrefl, if_pos hL, hgL, hprev]
  have hidx : L - 1 < (removeAt L s.lines).length := by
    rw [length_removeAt hlen]; omega
  refine ⟨_, hbs, ?_, ?_, ?_, rfl⟩
  · simp [length_removeAt hlen]
  · exact lineAt_set_self hidx _
  · rw [lineAt_set_self hidx _]
    simp

theorem C4_backspace_line_merge_witness :
    ∃ s', backspace ⟨[[97, 98], [99, 100]], ⟨1, 0⟩⟩ = some s' ∧
      s'.lines.length = (⟨[[97, 98], [99, 100]], ⟨1, 0⟩⟩ : EditorState).lines.length - 1 ∧
      lineAt s'.lines 0
        = lineAt (⟨[[97, 98], [99, 100]], ⟨1, 0⟩⟩ : EditorState).lines 0
          ++ lineAt (⟨[[97, 98], [99, 100]], ⟨1, 0⟩⟩ : EditorState).lines 1 ∧
      (lineAt s'.lines 0).length
        = (lineAt (⟨[[97, 98], [99, 100]], ⟨1, 0⟩⟩ : EditorState).lines 0).length
          + (lineAt (⟨[[97, 98], [99, 100]], ⟨1, 0⟩⟩ : EditorState).lines 1).length ∧
      s'.cursor
        = ⟨0, (lineAt (⟨[[97, 98], [99, 100]], ⟨1, 0⟩⟩ : EditorState).lines 0).length⟩ :=
  C4_backspace_line_merge ⟨[[97, 98], [99, 100]], ⟨1, 0⟩⟩ 1 rfl (by decide) (by decide)

/-- C5 (amended): for every state whose cursor sits at (line = L, col = C)
with L a valid line index and C at most that line's byte length, and — as the
code's `String::split_off` additionally requires on pain of a panic — C on a
char boundary of that line, newline increases the line count by exactly 1,
replaces line L by the original line's prefix [0, C), inserts the suffix
[C, end) as line L+1, leaves all other lines unchanged, and moves the cursor
to (L+1, 0). -/
theorem C5_newline_split (s : EditorState) (L C : Nat)
    (hc : s.cursor = ⟨L, C⟩) (hL : L < s.lines.length)
    (hC : C ≤ (lineAt s.lines L).length)
    (hb : is_char_boundary (lineAt s.lines L) C = true) :
    ∃ s', newline s = some s' ∧
      s'.lines.length = s.lines.length + 1 ∧
      s'.lines = s.lines.take L
        ++ (lineAt s.lines L).take C :: (lineAt s.lines L).drop C :: s.lines.drop (L + 1) ∧
      s'.cursor = ⟨L + 1, 0⟩ := by
  have hemp : s.lines.isEmpty = false := by
    cases hls : s.lines
    · rw [hls] at hL; simp at hL
    · rfl
  have hnl : nlLines s = s.lines := by
    unfold nlLines
    rw [hemp]
    simp
  have hline : nlLine s = L := by
    unfold nlLine
    rw [hnl, hc]
    simp
    omega
  have hgL : (nlLines s)[nlLine s]? = some (lineAt s.lines L) := by
    rw [hnl, hline]
    simp [lineAt, List.getElem?_eq_getElem hL]
  have hmin : min s.cursor.col (lineAt s.lines L).length = C := by
    rw [hc]
    simp
    omega
  have hnw : newline s = some ⟨insertAt (nlLine s + 1) ((lineAt s.lines L).drop C)
      ((nlLines s).set (nlLine s) ((lineAt s.lines L).take C)), ⟨nlLine s + 1, 0⟩⟩ := by
    unfold newline
    rw [hgL]
    simp only [hmin]
    rw [if_pos hb]
  rw [hline, hnl] at hnw
  have heq : insertAt (L + 1) ((lineAt s.lines L).drop C)
      (s.lines.set L ((lineAt s.lines L).take C))
      = s.lines.take L
        ++ (lineAt s.lines L).take C :: (lineAt s.lines L).drop C :: s.lines.drop (L + 1) := by
    have := insertAt_set_succ s.lines L hL ((lineAt s.lines L).take C) ((lineAt s.lines L).drop C)
    simpa using this
  refine ⟨_, hnw, ?_, ?_, rfl⟩
  · show (insertAt (L + 1) _ _).length = _
    rw [heq]
    simp
    omega
  · exact heq

theorem C5_newline_split_witness :
    ∃ s', newline ⟨[[97, 98]], ⟨0, 1⟩⟩ = some s' ∧
      s'.lines.length = (⟨[[97, 98]], ⟨0, 1⟩⟩ : EditorState).lines.length + 1 ∧
      s'.lines = (⟨[[97, 98]], ⟨0, 1⟩⟩ : EditorState).lines.take 0
        ++ (lineAt (⟨[[97, 98]], ⟨0, 1⟩⟩ : EditorState).lines 0).take 1
          :: (lineAt (⟨[[97, 98]], ⟨0, 1⟩⟩ : EditorState).lines 0).drop 1
          :: (⟨[[97, 98]], ⟨0, 1⟩⟩ : EditorState).lines.drop 1 ∧
      s'.cursor = ⟨1, 0⟩ :=
  C5_newline_split ⟨[[97, 98]], ⟨0, 1⟩⟩ 0 1 rfl (by decide) (by decide) (by decide)

/-- C5 (counterexample to the claim as stated): the state holding the single
line U+00E9 (bytes 195, 169) with the cursor at byte column 1 is reachable and
satisfies C ≤ line length, yet newline panics there (the embedded operation
returns none, so no state with an increased line count exists): the claim
fails without the char-boundary hypothesis. -/
theorem C5_newline_mid_char_counterexample :
    Reachable ⟨[[195, 169]], ⟨0, 1⟩⟩
    ∧ (⟨[[195, 169]], ⟨0, 1⟩⟩ : EditorState).cursor.col
        ≤ (lineAt (⟨[[195, 169]], ⟨0, 1⟩⟩ : EditorState).lines 0).length
    ∧ newline ⟨[[195, 169]], ⟨0, 1⟩⟩ = none :=
  ⟨reachable_eacute_mid, by decide, by decide⟩

/-- C6 (the claim is the spec's intent; the code panics): insert_char at
cursor (2, 0) on the one-line document ["a"] appends one empty line but then
indexes lines[2] out of bounds — a panic, not a successful insert; at cursor
(1, 1) the appended line is empty so the column-1 insert panics; move_right
with the cursor line out of range panics on its unchecked index; and even the
reachable state obtained by typing U+00E9 panics on backspace (byte column 2,
String::remove at the non-boundary byte 1). The embedding returns none — the
panic — at each of these inputs. -/
theorem C6_out_of_range_cursor_panics :
    insert_char 120 ⟨[[97]], ⟨2, 0⟩⟩ = none
    ∧ insert_char 120 ⟨[[97]], ⟨1, 1⟩⟩ = none
    ∧ move_right ⟨[[97]], ⟨2, 0⟩⟩ = none
    ∧ ((insert_char 233 initState).bind backspace) = none :=
  ⟨by decide, by decide, by decide, by decide⟩

/-- C7: for every string, joining with the line separator the list of lines
produced by splitting it reproduces the string exactly. -/
theorem C7_split_join_roundtrip : ∀ s : Str, join_lines (split_lines_vec s) = s := by
  intro s
  have h := join_splitNl s
  rcases hs : splitNl s with _ | ⟨l, ls⟩
  · exact absurd hs (splitNl_ne_nil s)
  · rw [hs] at h
    simpa [split_lines_vec, hs] using h

/-- C8: visible_range returns an empty range with zero padding when the line
count is 0, and otherwise computes start = max(0, floor(scroll_top / 20)),
end = min(start + ceil(viewport_height / 20) + 20, total_lines) (line height
20, overscan 20), leading padding start * 20 and trailing padding
(total_lines - end) * 20; in particular scroll_top 700, viewport 600, 1000
lines yields (35, 85, 700, 18300). -/
theorem C8_visible_range_formula :
    (∀ (st vh : ℚ) (n : Nat),
       visible_range st vh n =
         if n = 0 then (0, 0, 0, 0)
         else
           ((max ⌊st / 20⌋ 0).toNat,
            min ((max ⌊st / 20⌋ 0).toNat + ((⌈vh / 20⌉).toNat + 20)) n,
            ((max ⌊st / 20⌋ 0).toNat : ℚ) * 20,
            ((n - min ((max ⌊st / 20⌋ 0).toNat + ((⌈vh / 20⌉).toNat + 20)) n : Nat) : ℚ) * 20))
    ∧ visible_range 700 600 1000 = (35, 85, 700, 18300) := by
  constructor
  · intro st vh n
    by_cases hn : n = 0
    · simp [visible_range, hn]
    · simp [visible_range, hn, line_px_eq]
  · have h35 : (⌊(700 : ℚ) / 20⌋ : ℤ) = 35 := by
      rw [show (700 : ℚ) / 20 = ((35 : ℤ) : ℚ) by norm_num]
      exact Int.floor_intCast 35
    have h30 : (⌈(600 : ℚ) / 20⌉ : ℤ) = 30 := by
      rw [show (600 : ℚ) / 20 = ((30 : ℤ) : ℚ) by norm_num]
      exact Int.ceil_intCast 30
    simp [visible_range, line_px_eq, h35, h30]
    norm_num

/-- C9: loading a language's syntax definition never fails the caller — an
unparsable definition source degrades to the no-rules fallback; a definition
whose parse succeeds loads exactly the rules whose patterns compile (a bad
rule is dropped, the rest load, as a permutation accounting for the priority
sort); a language name outside the manifest's language set short-circuits to
the fallback with the cache untouched, for every loader; and load_syntax
keeps every cache key inside the language set, which justifies the previous
conjunct's cache hypothesis on all program-built caches. -/
theorem C9_syntax_loading_fallbacks :
    (∀ (env : Env) (cache : Cache) (language content : Str),
        cacheLookup cache language = none →
        env.load_sidel_text language = some content →
        env.parse_toml content = none →
        ( load_syntax env cache language).1 = fallback_syntax)
    ∧ (∀ (env : Env) (toml_text : Str) (f : SidelFile),
        env.parse_toml toml_text = some f →
        ∃ syn, parse_sidel env toml_text = some syn ∧
          syn.default_color = f.default_color ∧
          List.Perm syn.rules (f.rule.filterMap (compileRule env.compile_regex)))
    ∧ (∀ (env : Env) (cache : Cache) (language : Str),
        language ∉ env.manifest.languages → CacheOK env cache →
        load_syntax env cache language = ( fallback_syntax, cache))
    ∧ (∀ (env : Env) (cache : Cache) (language : Str),
        CacheOK env cache → CacheOK env ( load_syntax env cache language).2) := by
  refine ⟨?_, ?_, ?_, ?_⟩
  · intro env cache language content hmiss hload hparse
    unfold load_syntax
    split
    · rename_i hit heq
      rw [hmiss] at heq
      exact Option.noConfusion heq
    · split
      · rw [hload]
        simp [parse_sidel, hparse]
      · rfl
  · intro env toml_text f hf
    refine ⟨_, by unfold parse_sidel; rw [hf], rfl, ?_⟩
    exact sortRules_perm _
  · intro env cache language hnot hok
    unfold load_syntax
    split
    · rename_i hit heq
      exact absurd (hok language hit heq) hnot
    · rw [if_neg hnot]
  · intro env cache language hok
    unfold load_syntax
    split
    · exact hok
    · split
      · rename_i hmem
        intro k sy hk
        unfold cacheLookup at hk
        split at hk
        · rename_i hlk
          exact hlk ▸ hmem
        · exact hok k sy hk
      · exact hok

theorem C9_syntax_loading_fallbacks_witness :
    load_syntax ⟨⟨[], [[114]]⟩, fun _ => none, fun _ => none, fun _ => none⟩ [] [120]
      = ( fallback_syntax, []) :=
  C9_syntax_loading_fallbacks.2.2.1 ⟨⟨[], [[114]]⟩, fun _ => none, fun _ => none, fun _ => none⟩
    [] [120] (by decide) (fun k sy hk => Option.noConfusion hk)

/-- C10: cursor column arithmetic is in UTF-8 bytes, not characters — every
successful insert_char advances the column by the inserted character's UTF-8
byte length, move_left at positive column decrements the column by exactly 1,
and consequently a reachable state exists (insert U+00E9 into the empty
document, then move_left) whose column lies strictly inside that character's
two-byte encoding and is not a char boundary of its line. -/
theorem C10_byte_column_arithmetic :
    (∀ (ch : Nat) (s s' : EditorState), insert_char ch s = some s' →
        s'.cursor.col = s.cursor.col + utf8Len ch)
    ∧ (∀ s s' : EditorState, 0 < s.cursor.col → move_left s = some s' →
        s'.cursor.col = s.cursor.col - 1)
    ∧ (∃ s : EditorState, Reachable s ∧
        lineAt s.lines s.cursor.line = utf8Encode 233 ∧
        0 < s.cursor.col ∧ s.cursor.col < (utf8Encode 233).length ∧
        is_char_boundary (lineAt s.lines s.cursor.line) s.cursor.col = false) := by
  refine ⟨?_, ?_, ?_⟩
  · intro ch s t h
    unfold insert_char at h
    split at h
    · exact absurd h (by simp)
    · split at h
      · exact absurd h (by simp)
      · cases h
        rfl
  · intro s t hpos h
    unfold move_left at h
    rw [if_pos hpos] at h
    cases h
    rfl
  · exact ⟨⟨[[195, 169]], ⟨0, 1⟩⟩, reachable_eacute_mid, by decide, by decide, by decide,
      by decide⟩

theorem C10_byte_column_arithmetic_witness :
    (⟨[[195, 169]], ⟨0, 2⟩⟩ : EditorState).cursor.col
      = initState.cursor.col + utf8Len 233 :=
  C10_byte_column_arithmetic.1 233 initState ⟨[[195, 169]], ⟨0, 2⟩⟩ (by decide)

end SIDE
